import Mathlib

/-!
Verification of the DASH streaming repository (programA.py, programB.py,
proxy.py): a shallow embedding of the manifest parsers, the segment fetch
primitive, the producer/consumer pipeline of proxy.py, and the CLI entry
points, together with theorems settling the specification claims.

Manifest text is modelled as `List Char`; a split manifest as
`List (List Char)` of lines.  Python `bytes` payloads are modelled as
`List Nat` (one `Nat` per byte value).
-/

namespace Dash

/-! ## Python string primitives -/

/-- Model of Python `str.strip()` (used with no argument in the sources):
drop whitespace from both ends of the character list. -/
def pyStrip (cs : List Char) : List Char :=
  ((cs.dropWhile (·.isWhitespace)).reverse.dropWhile (·.isWhitespace)).reverse

/-- Helper for `pyWords`: `cur` is the reversed current token. -/
def pyWordsAux : List Char → List Char → List (List Char)
  | cur, [] => if cur.isEmpty then [] else [cur.reverse]
  | cur, c :: cs =>
    if c.isWhitespace then
      if cur.isEmpty then pyWordsAux [] cs else cur.reverse :: pyWordsAux [] cs
    else pyWordsAux (c :: cur) cs

/-- Model of Python `str.split()` with no separator: runs of whitespace
separate tokens, leading/trailing whitespace is ignored. -/
def pyWords (cs : List Char) : List (List Char) := pyWordsAux [] cs

/-- Model of Python `str.split('\n')`: split at every newline, keeping
empty pieces; `''.split('\n') == ['']`. -/
def splitNl : List Char → List (List Char)
  | [] => [[]]
  | c :: cs =>
    if c = '\n' then [] :: splitNl cs
    else
      match splitNl cs with
      | w :: ws => (c :: w) :: ws
      | [] => [[c]]

/-- Join lines with `'\n'`; inverse of `splitNl` on newline-free lines. -/
def joinNl : List (List Char) → List Char
  | [] => []
  | [l] => l
  | l :: ls => l ++ '\n' :: joinNl ls

/-! ## Python `int()` on decimal strings -/

/-- Is `c` an ASCII decimal digit (codepoints 48–57)? -/
def isDig (c : Char) : Bool := 48 ≤ c.toNat && c.toNat ≤ 57

/-- Nonempty all-digit check. -/
def isDigits (cs : List Char) : Bool := !cs.isEmpty && cs.all isDig

/-- Decimal value of a digit list (garbage on non-digits; guarded by
`isDigits`). -/
def digitsNat (cs : List Char) : Nat :=
  cs.foldl (fun a c => 10 * a + (c.toNat - 48)) 0

/-- Value of a nonempty digit list, `none` otherwise. -/
def digitsVal (cs : List Char) : Option Nat :=
  if isDigits cs then some (digitsNat cs) else none

/-- Model of Python `int(str)` restricted to the sublanguage the repository
exercises: surrounding whitespace, an optional single sign, then ASCII
decimal digits.  (Python additionally accepts digit-group underscores and
non-ASCII digits; the manifests in play never contain those.) -/
def pyIntCore : List Char → Option Int
  | [] => none
  | c :: rest =>
    if c = '-' then (digitsVal rest).map (fun n => -(n : Int))
    else if c = '+' then (digitsVal rest).map (fun n => (n : Int))
    else (digitsVal (c :: rest)).map (fun n => (n : Int))

def pyInt? (s : List Char) : Option Int := pyIntCore (pyStrip s)

/-! ## Decimal rendering (for the spec-side manifest grammar) -/

/-- The character for a digit value `d < 10`. -/
def digitChar (d : Nat) : Char :=
  if d = 0 then '0' else if d = 1 then '1' else if d = 2 then '2'
  else if d = 3 then '3' else if d = 4 then '4' else if d = 5 then '5'
  else if d = 6 then '6' else if d = 7 then '7' else if d = 8 then '8'
  else '9'

/-- Fuel-driven decimal rendering; `fuel > n` suffices. -/
def decCharsAux : Nat → Nat → List Char
  | 0, _ => []
  | fuel + 1, n =>
    if n < 10 then [digitChar n]
    else decCharsAux fuel (n / 10) ++ [digitChar (n % 10)]

/-- Decimal rendering of a natural number. -/
def decChars (n : Nat) : List Char := decCharsAux (n + 1) n

/-! ## Manifest parsing

Shallow embedding of `parse_manifest` (programA.py lines 15–63, identical
modulo the `total_size` field in programB.py lines 16–61) and of
`parse_manifest_for_track` (proxy.py lines 18–62).  A raised Python
exception is modelled as `Except.error`. -/

/-- The exceptions the parsers can raise: `IndexError` from `lines[i]` /
`tokens[i]` out of range, `ValueError` from `int()` on a bad string and
from the proxy's explicit track-range / track-not-found `raise`. -/
inductive PyErr
  | indexError
  | valueError
deriving DecidableEq, Repr

/-- A segment `(offset, size)` as parsed — Python ints. -/
abbrev Seg := Int × Int

/-- A parsed track of programA's `parse_manifest`: the dict
`{'filename', 'num_segments', 'total_size', 'segments'}`. -/
structure TrackA where
  filename : List Char
  num_segments : Int
  total_size : Int
  segments : List Seg
deriving DecidableEq, Repr

/-- The segment-reading loop (programA.py lines 48–54): reads `k` lines
starting at index `idx`, each split with `.strip().split()`, taking
`int(tokens[0])` and `int(tokens[1])`; `lines[i]`/`tokens[i]` out of
range raises `IndexError`, a failing `int()` raises `ValueError`.
Returns the segments, the accumulated `total_size`, and the cursor after
the loop. -/
def parseSegLines (lines : List (List Char)) :
    Nat → Nat → Except PyErr (List Seg × Int × Nat)
  | 0, idx => .ok ([], 0, idx)
  | k + 1, idx =>
    match lines.get? idx with
    | none => .error .indexError
    | some line =>
      match (pyWords (pyStrip line)).get? 0 with
      | none => .error .indexError
      | some t0 =>
        match pyInt? t0 with
        | none => .error .valueError
        | some offset =>
          match (pyWords (pyStrip line)).get? 1 with
          | none => .error .indexError
          | some t1 =>
            match pyInt? t1 with
            | none => .error .valueError
            | some size =>
              match parseSegLines lines k (idx + 1) with
              | .error e => .error e
              | .ok (rest, total, idx2) =>
                .ok ((offset, size) :: rest, size + total, idx2)

/-- The per-track loop of programA's `parse_manifest` (lines 27–61):
filename line, three skipped lines (never read — the cursor only
advances), integer segment count at `idx + 4`, then the segment lines
from `idx + 5`. -/
def parseTrackBlocks (lines : List (List Char)) :
    Nat → Nat → Except PyErr (List TrackA × Nat)
  | 0, idx => .ok ([], idx)
  | t + 1, idx =>
    match lines.get? idx with
    | none => .error .indexError
    | some fnLine =>
      match lines.get? (idx + 4) with
      | none => .error .indexError
      | some cntLine =>
        match pyInt? (pyStrip cntLine) with
        | none => .error .valueError
        | some ns =>
          match parseSegLines lines ns.toNat (idx + 5) with
          | .error e => .error e
          | .ok (segs, total, idx2) =>
            match parseTrackBlocks lines t idx2 with
            | .error e => .error e
            | .ok (rest, idx3) =>
              .ok (⟨pyStrip fnLine, ns, total, segs⟩ :: rest, idx3)

/-- programA's `parse_manifest` on pre-split lines: number of tracks from
`int(lines[1])`, then `range(num_tracks)` track blocks from index 2. -/
def parseManifestLines (lines : List (List Char)) :
    Except PyErr (Int × List TrackA) :=
  match lines.get? 1 with
  | none => .error .indexError
  | some l1 =>
    match pyInt? l1 with
    | none => .error .valueError
    | some t =>
      match parseTrackBlocks lines t.toNat 2 with
      | .error e => .error e
      | .ok (tracks, _) => .ok (t, tracks)

/-- programA's `parse_manifest` on raw text:
`manifest_content.strip().split('\n')` then the line-level parse. -/
def parse_manifest (text : List Char) : Except PyErr (Int × List TrackA) :=
  parseManifestLines (splitNl (pyStrip text))

/-- The track-scanning loop of proxy.py's `parse_manifest_for_track`
(lines 32–60): parse track blocks in order, returning the requested one;
the trailing `raise ValueError("Track not found")` is the fuel-0 case.
The loop records segments exactly as `parseSegLines` does (the proxy does
not total the sizes; the extra component is dropped). -/
def proxyTrackLoop (lines : List (List Char)) (target : Int) :
    Nat → Nat → Nat → Except PyErr (List Char × List Seg)
  | 0, _, _ => .error .valueError
  | t + 1, cur, idx =>
    match lines.get? idx with
    | none => .error .indexError
    | some fnLine =>
      match lines.get? (idx + 4) with
      | none => .error .indexError
      | some cntLine =>
        match pyInt? (pyStrip cntLine) with
        | none => .error .valueError
        | some ns =>
          match parseSegLines lines ns.toNat (idx + 5) with
          | .error e => .error e
          | .ok (segs, _total, idx2) =>
            if (cur : Int) = target then .ok (pyStrip fnLine, segs)
            else proxyTrackLoop lines target t (cur + 1) idx2

/-- proxy.py `parse_manifest_for_track` (lines 18–62): strip/split the
text, read the track count, raise `ValueError` when the requested track
number is out of range `0 ≤ n < num_tracks`, else scan to the track. -/
def parse_manifest_for_track (text : List Char) (track_number : Int) :
    Except PyErr (List Char × List Seg) :=
  let lines := splitNl (pyStrip text)
  match lines.get? 1 with
  | none => .error .indexError
  | some l1 =>
    match pyInt? l1 with
    | none => .error .valueError
    | some t =>
      if track_number < 0 ∨ t ≤ track_number then .error .valueError
      else proxyTrackLoop lines track_number t.toNat 0 2

/-! ## The size report (programA.py `main`, lines 83–93) -/

/-- The numbers programA's `main` writes to the results file, one per
line: the track count, then — only when at least one track exists — the
FIRST track's segment count (the source comments "same for all tracks"),
then each track's `total_size`. -/
def headSegCount : List TrackA → List Int
  | [] => []
  | tr :: _ => [tr.num_segments]

def sizeReport (t : Int) (tracks : List TrackA) : List Int :=
  [t] ++ headSegCount tracks ++ tracks.map (·.total_size)

/-- Modelled from the spec: the size-report output as claim C9 words it —
track count, then the segment count of EACH track, then each track's
total byte size.  For comparison with `sizeReport`. -/
def claimSizeReport (t : Int) (tracks : List TrackA) : List Int :=
  [t] ++ tracks.map (·.num_segments) ++ tracks.map (·.total_size)

/-- The size-report pipeline of programA `main`: parse, then write; a
parse exception aborts with no output (`sys.exit(1)` path). -/
def reportOf (text : List Char) : Option (List Int) :=
  match parse_manifest text with
  | .ok (t, tracks) => some (sizeReport t tracks)
  | .error _ => none

/-! ## The spec grammar as a predicate (for claim C5)

`wellFormedLines` follows the spec's §6 grammar word by word, with the
single correction claim C5's counterexample forces: a segment line needs
AT LEAST two tokens whose first two are integers (the source reads
`tokens[0]` and `tokens[1]` and ignores the rest), not EXACTLY two. -/

/-- A structurally acceptable segment line: at least two
whitespace-separated tokens, the first two parseable as integers. -/
def segLineOk (l : List Char) : Bool :=
  match (pyWords (pyStrip l)).get? 0, (pyWords (pyStrip l)).get? 1 with
  | some a, some b => (pyInt? a).isSome && (pyInt? b).isSome
  | _, _ => false

/-- `k` acceptable segment lines starting at line `idx`. -/
def wfSegLines (lines : List (List Char)) : Nat → Nat → Bool
  | 0, _ => true
  | k + 1, idx =>
    match lines.get? idx with
    | some l => segLineOk l && wfSegLines lines k (idx + 1)
    | none => false

/-- An acceptable track block at line `idx`: filename, codec, bitrate,
duration and segment-count lines present, the segment count an integer,
and that many acceptable segment lines.  Returns the line index after the
block.  (Presence of the three metadata lines `idx+1 .. idx+3`, which
the grammar consumes unread, is exactly presence of line `idx+4`, since
list indices are downward closed.) -/
def wfTrack? (lines : List (List Char)) (idx : Nat) : Option Nat :=
  match lines.get? idx, lines.get? (idx + 4) with
  | some _, some cnt =>
    match pyInt? (pyStrip cnt) with
    | some s => if wfSegLines lines s.toNat (idx + 5) then some (idx + 5 + s.toNat) else none
    | none => none
  | _, _ => none

/-- `t` consecutive acceptable track blocks from line `idx`. -/
def wfTracks (lines : List (List Char)) : Nat → Nat → Bool
  | 0, _ => true
  | t + 1, idx =>
    match wfTrack? lines idx with
    | some idx2 => wfTracks lines t idx2
    | none => false

/-- The spec §6 grammar (with the amended segment-line rule): a movie
line and an integer track count line exist, followed by that many track
blocks. -/
def wellFormedLines (lines : List (List Char)) : Bool :=
  match lines.get? 1 with
  | some l1 =>
    match pyInt? l1 with
    | some t => wfTracks lines t.toNat 2
    | none => false
  | none => false

/-! ## The segment fetch primitive and the producer

`requests.get(file_url, headers={"Range": ...})` is modelled by an oracle
`resp` giving the origin's `(status_code, body)` for the `idx`-th segment
request of a track (`idx` is the loop position; the body may depend on
the segment's offset/size and on when the request is made).  Bodies are
byte lists. -/

/-- A byte string. -/
abbrev Bytes := List Nat

/-- A queue item as the producer builds it: `(segment_data, is_last)`.
`segment_data` is `Option Bytes` because the consumer's code also
branches on `None` (proxy.py line 99), although the producer itself only
ever enqueues real byte payloads. -/
abbrev Payload := Option Bytes × Bool

/-- `response.raise_for_status()` followed by `response.content`
(proxy.py lines 79–81, programB.py lines 75–77): an HTTP status in
400–599 raises (modelled `none`); any other status hands back the body
unchanged — its length is never compared to the requested size. -/
def fetchSegment (r : Nat × Bytes) : Option Bytes :=
  if 400 ≤ r.1 ∧ r.1 < 600 then none else some r.2

/-- The bytes of the remote resource `remote` over the inclusive range
`[o, o+s-1]` — what a compliant origin returns for
`Range: bytes=o-(o+s-1)`. -/
def rangeBytes (remote : Nat → Nat) (o s : Nat) : Bytes :=
  (List.range s).map (fun j => remote (o + j))

/-- The sequence of items the producer loop (proxy.py lines 76–85) puts
on the queue, given the track's segment list and the response oracle:
fetch each segment in order; on the first fetch failure the exception
ends the thread (lines 89–90) and nothing further is enqueued; otherwise
enqueue `(data, is_last)` where `is_last` holds exactly for the final
list element.  `idx` is the loop counter fed to the oracle. -/
def producerPushes (resp : Nat → α → Nat × Bytes) :
    List α → Nat → List Payload
  | [], _ => []
  | seg :: rest, idx =>
    match fetchSegment (resp idx seg) with
    | none => []
    | some d => (some d, rest.isEmpty) :: producerPushes resp rest (idx + 1)

/-- What a fully successful producer run over `segs` enqueues when every
response is `200` with exactly the requested range of `remote`. -/
def specPushes (remote : Nat → Nat) : List (Nat × Nat) → List Payload
  | [] => []
  | seg :: rest =>
    (some (rangeBytes remote seg.1 seg.2), rest.isEmpty) :: specPushes remote rest

/-! ## The producer/consumer pipeline as a transition system

proxy.py `main` shares one unbounded `queue.Queue()` between the two
threads.  A pipeline state records how many items the producer has
enqueued, the queue contents (FIFO), the bytes the consumer has written
to the player socket, and whether the consumer loop has exited.  Socket
writes are modelled as always succeeding (the peer keeps reading); the
consumer's `BrokenPipeError`/`OSError` early exits concern a departing
player and are outside the delivered-bytes claims. -/

structure PipeState where
  produced : Nat
  chan : List Payload
  sent : Bytes
  consumerDone : Bool
deriving DecidableEq, Repr

/-- One consumer iteration (proxy.py lines 95–119) on the dequeued item
`p`, with `rest` the remaining queue: a `None` body breaks out of the
loop before any write; otherwise the bytes are sent and the loop exits
afterwards iff the item is marked last. -/
def consumeItem (σ : PipeState) (p : Payload) (rest : List Payload) : PipeState :=
  match p.1 with
  | none => { σ with chan := rest, consumerDone := true }
  | some d => { σ with chan := rest, sent := σ.sent ++ d, consumerDone := p.2 }

/-- Interleaving semantics of the two threads: the producer may enqueue
its next item whenever it still has one; the consumer may dequeue the
queue head whenever the queue is nonempty and its loop has not exited
(`queue.get()` blocks on an empty queue). -/
inductive PipeStep (pushes : List Payload) : PipeState → PipeState → Prop
  | produce (σ : PipeState) (p : Payload) (h : pushes.get? σ.produced = some p) :
      PipeStep pushes σ
        { σ with produced := σ.produced + 1, chan := σ.chan ++ [p] }
  | consume (σ : PipeState) (p : Payload) (rest : List Payload)
      (hc : σ.chan = p :: rest) (hd : σ.consumerDone = false) :
      PipeStep pushes σ (consumeItem σ p rest)

/-- The pipeline's start state: nothing produced, empty queue, nothing
sent, consumer looping. -/
def initState : PipeState := ⟨0, [], [], false⟩

/-- States the pipeline can reach under some interleaving. -/
def Reachable (pushes : List Payload) (σ : PipeState) : Prop :=
  Relation.ReflTransGen (PipeStep pushes) initState σ

/-- The bytes a consumer that dequeues exactly the items `ps` writes to
the socket (a `None` body contributes nothing). -/
def deliveredBytes (ps : List Payload) : Bytes :=
  (ps.map (fun p => p.1.getD [])).flatten

/-- Does processing item `p` end the consumer loop? (`None` body or
`is_last`.) -/
def stopsP (p : Payload) : Bool := p.1.isNone || p.2

/-- The pipeline invariant: some count `c` of items has been consumed;
the socket holds their bytes, the queue holds items `c..produced`, and
the consumer has exited iff item `c-1` was a stopping item. -/
def PipeInv (pushes : List Payload) (σ : PipeState) : Prop :=
  ∃ c, c ≤ σ.produced ∧ σ.produced ≤ pushes.length ∧
    σ.sent = deliveredBytes (pushes.take c) ∧
    σ.chan = (pushes.drop c).take (σ.produced - c) ∧
    (σ.consumerDone = true ↔
      (0 < c ∧ ∃ p, pushes.get? (c - 1) = some p ∧ stopsP p = true))

/-! ## proxy.py `main` (lines 126–177) -/

/-- How one invocation of proxy.py ends: with a process exit code, or
blocked forever (`consumer.join()` on a consumer stuck in
`queue.get()`). -/
inductive ExitOutcome
  | exits (code : Nat)
  | hangs
deriving DecidableEq, Repr

/-- Everything the producer thread enqueues for one run: download the
manifest (`none` models an HTTP error there — the thread dies silently,
lines 89–90), parse it for the requested track (an exception likewise
kills the thread before anything is enqueued), then run the fetch loop. -/
def mainPushes (resp : Nat → Seg → Nat × Bytes)
    (manifestResp : Option (List Char)) (tn : Int) : List Payload :=
  match manifestResp with
  | none => []
  | some text =>
    match parse_manifest_for_track text tn with
    | .error _ => []
    | .ok (_, segs) => producerPushes resp segs 0

/-- proxy.py `main` as a function of its environment: the argv count, the
raw track argument (fed to `int()` OUTSIDE the try block, line 133 — an
unparseable value is an uncaught `ValueError`, Python exit code 1),
whether the localhost connect succeeds (a refused connect is caught by
`except Exception`, printed, and `main` returns normally — exit code 0),
the manifest response, and the segment response oracle.  With the player
socket accepting all writes, the consumer thread terminates iff some
enqueued item stops its loop; otherwise `consumer.join()` blocks forever
and the process hangs. -/
def mainOutcome (argc : Nat) (trackArg : List Char) (connectOk : Bool)
    (manifestResp : Option (List Char)) (resp : Nat → Seg → Nat × Bytes) :
    ExitOutcome :=
  if argc ≠ 4 then .exits 1
  else
    match pyInt? trackArg with
    | none => .exits 1
    | some tn =>
      if connectOk then
        if (mainPushes resp manifestResp tn).any stopsP then .exits 0 else .hangs
      else .exits 0

/-! ## The spec-side manifest renderer (for claim C6)

Modelled from the spec: §6 gives the manifest grammar — movie name line,
track count line, then per track a filename line, codec line, bitrate
line, duration line, segment count line, and one `"offset size"` line per
segment.  `parse_manifest` is checked to be a left inverse of this
renderer. -/

/-- A track as the grammar writes it. -/
structure RTrack where
  filename : List Char
  codec : List Char
  bitrate : List Char
  duration : List Char
  segments : List (Nat × Nat)
deriving DecidableEq, Repr

/-- One rendered segment line `"offset size"`. -/
def renderSegLine (seg : Nat × Nat) : List Char :=
  decChars seg.1 ++ ' ' :: decChars seg.2

/-- The lines of one rendered track block. -/
def renderTrackLines (tr : RTrack) : List (List Char) :=
  [tr.filename, tr.codec, tr.bitrate, tr.duration, decChars tr.segments.length]
    ++ tr.segments.map renderSegLine

/-- All lines of a rendered manifest. -/
def renderLines (movie : List Char) (tracks : List RTrack) : List (List Char) :=
  movie :: decChars tracks.length :: (tracks.map renderTrackLines).flatten

/-- A rendered manifest as text. -/
def renderText (movie : List Char) (tracks : List RTrack) : List Char :=
  joinNl (renderLines movie tracks)

/-- The `TrackA` that parsing a rendered `RTrack` should recover. -/
def expectedTrack (tr : RTrack) : TrackA :=
  ⟨tr.filename, (tr.segments.length : Int),
    ((tr.segments.map Prod.snd).sum : Int),
    tr.segments.map (fun seg => ((seg.1 : Int), (seg.2 : Int)))⟩

/-- Is a line's first character non-whitespace?  (False for the empty
line.) -/
def headNonWs : List Char → Bool
  | [] => false
  | c :: _ => !c.isWhitespace

/-! ## Concrete fixtures used by counterexamples and witnesses -/

/-- The size-report output as claim C9 would have it, over a parsed
manifest (for comparison with `reportOf`). -/
def claimReportOf (text : List Char) : Option (List Int) :=
  match parse_manifest text with
  | .ok (t, tracks) => some (claimSizeReport t tracks)
  | .error _ => none

/-- A manifest whose only segment line has three tokens, the third not an
integer. -/
def c5bad : List Char := "m\n1\nf\nc\nb\nd\n1\n0 100 extra".toList

/-- A structurally clean one-track manifest. -/
def c5good : List Char := "m\n1\nf\nc\nb\nd\n1\n0 5".toList

/-- A two-track manifest whose tracks have 1 and 2 segments and total
sizes 10 and 25. -/
def c9demo : List Char :=
  "m\n2\nf1\nc\nb\nd\n1\n0 10\nf2\nc\nb\nd\n2\n10 20\n30 5".toList

/-- An origin that answers every range request with HTTP 200 and a
90-byte body. -/
def shortOrigin : Nat → Nat × Nat → Nat × Bytes := fun _ _ => (200, List.replicate 90 7)

/-- An origin serving `remote = id` faithfully. -/
def idOrigin : Nat → Nat × Nat → Nat × Bytes :=
  fun _ seg => (200, rangeBytes id seg.1 seg.2)

/-- An origin that serves request 0 faithfully and then answers 404. -/
def failAt1Origin : Nat → Nat × Nat → Nat × Bytes :=
  fun j seg => if j < 1 then (200, rangeBytes id seg.1 seg.2) else (404, [])

/-- A trivial OK origin over parsed (Int) segments, for `mainOutcome`. -/
def segOrigin200 : Nat → Seg → Nat × Bytes := fun _ _ => (200, [])

/-!
# Lemmas and theorems
-/

/-! ## Characters and digits -/

theorem isDig_not_ws {c : Char} (h : isDig c = true) : c.isWhitespace = false := by
  have h9 : c ≠ '\t' := fun hc => absurd (hc ▸ h) (by decide)
  have h10 : c ≠ '\n' := fun hc => absurd (hc ▸ h) (by decide)
  have h13 : c ≠ '\r' := fun hc => absurd (hc ▸ h) (by decide)
  have h32 : c ≠ ' ' := fun hc => absurd (hc ▸ h) (by decide)
  simp [Char.isWhitespace, h9, h10, h13, h32]

theorem isDig_ne_nl {c : Char} (h : isDig c = true) : c ≠ '\n' :=
  fun hc => absurd (hc ▸ h) (by decide)

theorem isDig_ne_minus {c : Char} (h : isDig c = true) : c ≠ '-' :=
  fun hc => absurd (hc ▸ h) (by decide)

theorem isDig_ne_plus {c : Char} (h : isDig c = true) : c ≠ '+' :=
  fun hc => absurd (hc ▸ h) (by decide)

theorem isDig_digitChar {d : Nat} (h : d < 10) : isDig (digitChar d) = true := by
  interval_cases d <;> decide

theorem digitChar_toNat {d : Nat} (h : d < 10) : (digitChar d).toNat = 48 + d := by
  interval_cases d <;> decide

/-! ## Decimal rendering round-trip -/

theorem digitsNat_append_one (xs : List Char) (c : Char) :
    digitsNat (xs ++ [c]) = 10 * digitsNat xs + (c.toNat - 48) := by
  simp [digitsNat, List.foldl_append]

theorem decCharsAux_spec : ∀ fuel n, n < fuel →
    (decCharsAux fuel n ≠ [] ∧ (∀ c ∈ decCharsAux fuel n, isDig c = true)) ∧
    digitsNat (decCharsAux fuel n) = n := by
  intro fuel
  induction fuel with
  | zero => intro n h; omega
  | succ fuel ih =>
    intro n h
    by_cases hn : n < 10
    · simp only [decCharsAux, if_pos hn]
      refine ⟨⟨by simp, ?_⟩, ?_⟩
      · intro c hc
        simp only [List.mem_singleton] at hc
        exact hc ▸ isDig_digitChar hn
      · simp [digitsNat, digitChar_toNat hn]
    · have hd : n / 10 < fuel := by omega
      have := ih (n / 10) hd
      simp only [decCharsAux, if_neg hn]
      refine ⟨⟨by simp, ?_⟩, ?_⟩
      · intro c hc
        rcases List.mem_append.mp hc with h1 | h1
        · exact this.1.2 c h1
        · simp only [List.mem_singleton] at h1
          exact h1 ▸ isDig_digitChar (Nat.mod_lt _ (by omega))
      · rw [digitsNat_append_one, this.2, digitChar_toNat (Nat.mod_lt _ (by omega))]
        omega

theorem decChars_ne_nil (n : Nat) : decChars n ≠ [] :=
  (decCharsAux_spec (n + 1) n (Nat.lt_succ_self n)).1.1

theorem decChars_digits (n : Nat) : ∀ c ∈ decChars n, isDig c = true :=
  (decCharsAux_spec (n + 1) n (Nat.lt_succ_self n)).1.2

theorem digitsNat_decChars (n : Nat) : digitsNat (decChars n) = n :=
  (decCharsAux_spec (n + 1) n (Nat.lt_succ_self n)).2

theorem isDigits_decChars (n : Nat) : isDigits (decChars n) = true := by
  simp only [isDigits, Bool.and_eq_true, Bool.not_eq_true', List.all_eq_true]
  exact ⟨by simpa using decChars_ne_nil n, decChars_digits n⟩

/-! ## `pyStrip` -/

theorem dropWhile_of_all {p : Char → Bool} {cs : List Char}
    (h : ∀ c ∈ cs, p c = false) : cs.dropWhile p = cs := by
  cases cs with
  | nil => rfl
  | cons c cs => simp [List.dropWhile_cons, h c (by simp)]

theorem pyStrip_of_all_not_ws {cs : List Char}
    (h : ∀ c ∈ cs, c.isWhitespace = false) : pyStrip cs = cs := by
  unfold pyStrip
  rw [dropWhile_of_all h, dropWhile_of_all (fun c hc => h c (List.mem_reverse.mp hc)),
    List.reverse_reverse]

theorem dropWhile_of_head {p : Char → Bool} {cs : List Char}
    (h : ∀ c, cs.head? = some c → p c = false) : cs.dropWhile p = cs := by
  cases cs with
  | nil => rfl
  | cons c cs => simp [List.dropWhile_cons, h c rfl]

theorem pyStrip_of_ends {cs : List Char}
    (h1 : ∀ c, cs.head? = some c → c.isWhitespace = false)
    (h2 : ∀ c, cs.reverse.head? = some c → c.isWhitespace = false) :
    pyStrip cs = cs := by
  unfold pyStrip
  rw [dropWhile_of_head h1, dropWhile_of_head h2, List.reverse_reverse]

theorem pyStrip_decChars (n : Nat) : pyStrip (decChars n) = decChars n :=
  pyStrip_of_all_not_ws (fun c hc => isDig_not_ws (decChars_digits n c hc))

/-! ## `pyInt?` on rendered decimals -/

theorem digitsVal_decChars (n : Nat) : digitsVal (decChars n) = some n := by
  simp [digitsVal, isDigits_decChars, digitsNat_decChars]

theorem pyInt?_decChars (n : Nat) : pyInt? (decChars n) = some (n : Int) := by
  unfold pyInt?
  rw [pyStrip_decChars]
  cases hd : decChars n with
  | nil => exact absurd hd (decChars_ne_nil n)
  | cons c cs =>
    have hc : isDig c = true := decChars_digits n c (by rw [hd]; simp)
    rw [pyIntCore, if_neg (isDig_ne_minus hc), if_neg (isDig_ne_plus hc),
      ← hd, digitsVal_decChars]
    rfl

/-! ## `pyWords` -/

theorem pyWordsAux_through : ∀ (w acc rest : List Char),
    (∀ c ∈ w, c.isWhitespace = false) →
    pyWordsAux acc (w ++ rest) = pyWordsAux (w.reverse ++ acc) rest := by
  intro w
  induction w with
  | nil => intro acc rest _; rfl
  | cons c w ih =>
    intro acc rest h
    have hc : c.isWhitespace = false := h c (by simp)
    simp only [List.cons_append, pyWordsAux, hc, Bool.false_eq_true, if_false, List.append_eq]
    rw [ih (c :: acc) rest (fun x hx => h x (by simp [hx]))]
    simp

theorem pyWords_single {w : List Char} (hne : w ≠ [])
    (h : ∀ c ∈ w, c.isWhitespace = false) : pyWords w = [w] := by
  unfold pyWords
  have := pyWordsAux_through w [] [] h
  rw [List.append_nil] at this
  rw [this]
  simp [pyWordsAux, hne]

theorem pyWords_pair {a b : List Char} (ha : a ≠ []) (hb : b ≠ [])
    (hwa : ∀ c ∈ a, c.isWhitespace = false)
    (hwb : ∀ c ∈ b, c.isWhitespace = false) :
    pyWords (a ++ ' ' :: b) = [a, b] := by
  unfold pyWords
  rw [pyWordsAux_through a [] (' ' :: b) hwa, List.append_nil]
  have hsp : (' ' : Char).isWhitespace = true := by decide
  simp only [pyWordsAux, hsp, if_true]
  have hrev : a.reverse.isEmpty = false := by
    simpa [List.isEmpty_iff] using ha
  rw [if_neg (by simp [hrev])]
  have := pyWords_single hb hwb
  unfold pyWords at this
  rw [this, List.reverse_reverse]

/-! ## `splitNl` and `joinNl` -/

theorem splitNl_no_nl : ∀ {l : List Char}, (∀ c ∈ l, c ≠ '\n') → splitNl l = [l] := by
  intro l
  induction l with
  | nil => intro _; rfl
  | cons c cs ih =>
    intro h
    have hc : c ≠ '\n' := h c (by simp)
    simp only [splitNl, if_neg hc]
    rw [ih (fun x hx => h x (by simp [hx]))]

theorem splitNl_append : ∀ {l : List Char} (rest : List Char),
    (∀ c ∈ l, c ≠ '\n') → splitNl (l ++ '\n' :: rest) = l :: splitNl rest := by
  intro l
  induction l with
  | nil => intro rest _; simp [splitNl]
  | cons c cs ih =>
    intro rest h
    have hc : c ≠ '\n' := h c (by simp)
    simp only [List.cons_append, splitNl, if_neg hc, List.append_eq]
    rw [ih rest (fun x hx => h x (by simp [hx]))]

theorem splitNl_joinNl : ∀ {ls : List (List Char)}, ls ≠ [] →
    (∀ l ∈ ls, ∀ c ∈ l, c ≠ '\n') → splitNl (joinNl ls) = ls := by
  intro ls
  induction ls with
  | nil => intro h _; exact absurd rfl h
  | cons l ls ih =>
    intro _ h
    cases ls with
    | nil => exact splitNl_no_nl (h l (by simp))
    | cons l2 ls2 =>
      show splitNl (l ++ '\n' :: joinNl (l2 :: ls2)) = _
      rw [splitNl_append _ (h l (by simp)),
        ih (by simp) (fun x hx => h x (by simp [hx]))]

/-! ## The parsers against the grammar predicate (claim C5) -/

theorem parseSegLines_ok (lines : List (List Char)) : ∀ (k idx) {segs total idx2},
    parseSegLines lines k idx = .ok (segs, total, idx2) →
    idx2 = idx + k ∧ segs.length = k ∧ total = (segs.map Prod.snd).sum := by
  intro k
  induction k with
  | zero =>
    intro idx segs total idx2 h
    simp only [parseSegLines, Except.ok.injEq, Prod.mk.injEq] at h
    obtain ⟨h1, h2, h3⟩ := h
    subst h1 h2 h3
    simp
  | succ k ih =>
    intro idx segs total idx2 h
    simp only [parseSegLines] at h
    split at h
    · exact absurd h (by simp)
    · split at h
      · exact absurd h (by simp)
      · split at h
        · exact absurd h (by simp)
        · split at h
          · exact absurd h (by simp)
          · split at h
            · exact absurd h (by simp)
            · split at h
              · exact absurd h (by simp)
              · rename_i rest total3 idx3 heq
                simp only [Except.ok.injEq, Prod.mk.injEq] at h
                obtain ⟨hs, ht, hx⟩ := h
                obtain ⟨e1, e2, e3⟩ := ih (idx + 1) heq
                subst hs ht hx
                exact ⟨by omega, by simp [e2], by simp [e3]⟩

theorem parseSegLines_isOk_iff (lines : List (List Char)) : ∀ (k idx),
    (parseSegLines lines k idx).isOk = wfSegLines lines k idx := by
  intro k
  induction k with
  | zero => intro idx; rfl
  | succ k ih =>
    intro idx
    simp only [parseSegLines, wfSegLines, segLineOk]
    repeat' split
    all_goals try rfl
    all_goals simp_all [Except.isOk, Except.toBool, List.getElem?_eq_none]
    all_goals rw [← ih (idx + 1)]
    all_goals simp_all [Except.isOk, Except.toBool]
theorem parseTrackBlocks_ok (lines : List (List Char)) : ∀ (t idx) {tracks idx3},
    parseTrackBlocks lines t idx = .ok (tracks, idx3) →
    tracks.length = t ∧ ∀ tr ∈ tracks,
      tr.segments.length = tr.num_segments.toNat ∧
      tr.total_size = (tr.segments.map Prod.snd).sum := by
  intro t
  induction t with
  | zero =>
    intro idx tracks idx3 h
    simp only [parseTrackBlocks, Except.ok.injEq, Prod.mk.injEq] at h
    obtain ⟨h1, h2⟩ := h
    subst h1 h2
    simp
  | succ t ih =>
    intro idx tracks idx3 h
    simp only [parseTrackBlocks] at h
    split at h
    · exact absurd h (by simp)
    · split at h
      · exact absurd h (by simp)
      · split at h
        · exact absurd h (by simp)
        · split at h
          · exact absurd h (by simp)
          · rename_i segs total idx2 hseg
            split at h
            · exact absurd h (by simp)
            · rename_i rest idx4 hrec
              simp only [Except.ok.injEq, Prod.mk.injEq] at h
              obtain ⟨h1, h2⟩ := h
              subst h1 h2
              obtain ⟨e1, e2⟩ := ih idx2 hrec
              obtain ⟨s1, s2, s3⟩ := parseSegLines_ok lines _ _ hseg
              refine ⟨by simp [e1], ?_⟩
              intro tr htr
              rcases List.mem_cons.mp htr with h | h
              · subst h
                refine ⟨by simpa using s2, by simpa using s3⟩
              · exact e2 tr h

theorem parseTrackBlocks_isOk_iff (lines : List (List Char)) : ∀ (t idx),
    (parseTrackBlocks lines t idx).isOk = wfTracks lines t idx := by
  intro t
  induction t with
  | zero => intro idx; rfl
  | succ t ih =>
    intro idx
    cases h0 : lines[idx]? with
    | none => simp [parseTrackBlocks, wfTracks, wfTrack?, h0, Except.isOk, Except.toBool]
    | some fn =>
      cases h4 : lines[idx + 4]? with
      | none => simp [parseTrackBlocks, wfTracks, wfTrack?, h0, h4, Except.isOk, Except.toBool]
      | some cnt =>
        cases hint : pyInt? (pyStrip cnt) with
        | none => simp [parseTrackBlocks, wfTracks, wfTrack?, h0, h4, hint, Except.isOk, Except.toBool]
        | some ns =>
          cases hseg : parseSegLines lines ns.toNat (idx + 5) with
          | error e =>
            have hwf : wfSegLines lines ns.toNat (idx + 5) = false := by
              rw [← parseSegLines_isOk_iff, hseg]; rfl
            simp [parseTrackBlocks, wfTracks, wfTrack?, h0, h4, hint, hseg, hwf, Except.isOk, Except.toBool]
          | ok v =>
            obtain ⟨segs, total, idx2⟩ := v
            have hwf : wfSegLines lines ns.toNat (idx + 5) = true := by
              rw [← parseSegLines_isOk_iff, hseg]; rfl
            have hidx : idx2 = idx + 5 + ns.toNat := by
              have := (parseSegLines_ok lines _ _ hseg).1
              omega
            simp only [parseTrackBlocks, wfTracks, wfTrack?, List.get?_eq_getElem?, h0, h4,
              hint, hseg, hwf, if_true]
            rw [← hidx, ← ih idx2]
            cases hr : parseTrackBlocks lines t idx2 with
            | error e => simp [hr, Except.isOk, Except.toBool]
            | ok v2 =>
              obtain ⟨rest, idx3⟩ := v2
              simp [hr, Except.isOk, Except.toBool]

theorem parseManifestLines_isOk_iff (lines : List (List Char)) :
    (parseManifestLines lines).isOk = wellFormedLines lines := by
  cases h1 : lines[1]? with
  | none =>
    simp [parseManifestLines, wellFormedLines, List.get?_eq_getElem?, h1,
      Except.isOk, Except.toBool]
  | some l1 =>
    cases hi : pyInt? l1 with
    | none =>
      simp [parseManifestLines, wellFormedLines, List.get?_eq_getElem?, h1, hi,
        Except.isOk, Except.toBool]
    | some t =>
      have hiff := parseTrackBlocks_isOk_iff lines t.toNat 2
      cases hb : parseTrackBlocks lines t.toNat 2 with
      | error e =>
        rw [hb] at hiff
        simp [parseManifestLines, wellFormedLines, List.get?_eq_getElem?, h1, hi, hb,
          Except.isOk, Except.toBool, ← hiff]
      | ok v =>
        obtain ⟨tracks, idx⟩ := v
        rw [hb] at hiff
        simp [parseManifestLines, wellFormedLines, List.get?_eq_getElem?, h1, hi, hb,
          Except.isOk, Except.toBool, ← hiff]

theorem parseManifestLines_ok (lines : List (List Char)) {t tracks}
    (h : parseManifestLines lines = .ok (t, tracks)) :
    tracks.length = t.toNat ∧ ∀ tr ∈ tracks,
      tr.segments.length = tr.num_segments.toNat ∧
      tr.total_size = (tr.segments.map Prod.snd).sum := by
  unfold parseManifestLines at h
  split at h
  · exact absurd h (by simp)
  · split at h
    · exact absurd h (by simp)
    · split at h
      · exact absurd h (by simp)
      · rename_i tracks2 idx3 hb
        simp only [Except.ok.injEq, Prod.mk.injEq] at h
        obtain ⟨h1, h2⟩ := h
        subst h1 h2
        exact parseTrackBlocks_ok lines _ _ hb
theorem get?_append_add {α : Type} (pre rest : List α) (j : Nat) :
    (pre ++ rest).get? (pre.length + j) = rest.get? j := by
  rw [List.get?_eq_getElem?, List.get?_eq_getElem?,
    List.getElem?_append_right (by omega)]
  congr 1
  omega

theorem decChars_not_nl (n : Nat) : ∀ c ∈ decChars n, c ≠ '\n' :=
  fun c hc => isDig_ne_nl (decChars_digits n c hc)

theorem renderSegLine_not_nl (seg : Nat × Nat) : ∀ c ∈ renderSegLine seg, c ≠ '\n' := by
  intro c hc
  unfold renderSegLine at hc
  rcases List.mem_append.mp hc with h | h
  · exact decChars_not_nl seg.1 c h
  · rcases List.mem_cons.mp h with h | h
    · subst h; decide
    · exact decChars_not_nl seg.2 c h

theorem getLast?_prop {p : Char → Bool} {l : List Char} {c : Char}
    (hall : ∀ x ∈ l, p x = true) (h : l.getLast? = some c) : p c = true := by
  obtain ⟨hne, heq⟩ := List.mem_getLast?_eq_getLast (show c ∈ l.getLast? by rw [h]; rfl)
  subst heq
  exact hall _ (List.getLast_mem hne)

theorem getLast?_cons_of_ne_nil {α : Type} {a : α} {l : List α} (h : l ≠ []) :
    (a :: l).getLast? = l.getLast? := by
  cases l with
  | nil => exact absurd rfl h
  | cons b m => exact List.getLast?_cons_cons

theorem getLast?_renderSegLine {seg : Nat × Nat} {c : Char}
    (h : (renderSegLine seg).getLast? = some c) : isDig c = true := by
  unfold renderSegLine at h
  rw [List.getLast?_append_cons, getLast?_cons_of_ne_nil (decChars_ne_nil seg.2)] at h
  exact getLast?_prop (decChars_digits seg.2) h

theorem pyStrip_renderSegLine (seg : Nat × Nat) :
    pyStrip (renderSegLine seg) = renderSegLine seg := by
  apply pyStrip_of_ends
  · intro c hc
    unfold renderSegLine at hc
    cases hd : decChars seg.1 with
    | nil => exact absurd hd (decChars_ne_nil seg.1)
    | cons a as =>
      rw [hd] at hc
      simp only [List.cons_append, List.head?_cons, Option.some.injEq] at hc
      subst hc
      exact isDig_not_ws (decChars_digits seg.1 a (by rw [hd]; simp))
  · intro c hc
    rw [List.head?_reverse] at hc
    exact isDig_not_ws (getLast?_renderSegLine hc)

theorem parseSegLines_render :
    ∀ (segs : List (Nat × Nat)) (pre post : List (List Char)),
    parseSegLines (pre ++ segs.map renderSegLine ++ post) segs.length pre.length
      = .ok (segs.map (fun seg => ((seg.1 : Int), (seg.2 : Int))),
             ((segs.map Prod.snd).sum : Int), pre.length + segs.length) := by
  intro segs
  induction segs with
  | nil => intro pre post; simp [parseSegLines]
  | cons s rest ih =>
    intro pre post
    have hnorm : pre ++ (s :: rest).map renderSegLine ++ post
        = pre ++ renderSegLine s :: (rest.map renderSegLine ++ post) := by simp
    rw [hnorm]
    have hline : (pre ++ renderSegLine s :: (rest.map renderSegLine ++ post)).get? pre.length
        = some (renderSegLine s) := by
      have h0 := get?_append_add pre (renderSegLine s :: (rest.map renderSegLine ++ post)) 0
      rw [Nat.add_zero] at h0
      rw [h0]
      rfl
    have hwords : pyWords (pyStrip (renderSegLine s)) = [decChars s.1, decChars s.2] := by
      rw [pyStrip_renderSegLine]
      exact pyWords_pair (decChars_ne_nil s.1) (decChars_ne_nil s.2)
        (fun c hc => isDig_not_ws (decChars_digits s.1 c hc))
        (fun c hc => isDig_not_ws (decChars_digits s.2 c hc))
    have ihx := ih (pre ++ [renderSegLine s]) post
    rw [show (pre ++ [renderSegLine s]) ++ rest.map renderSegLine ++ post
        = pre ++ renderSegLine s :: (rest.map renderSegLine ++ post) from by simp] at ihx
    rw [show (pre ++ [renderSegLine s]).length = pre.length + 1 from by simp] at ihx
    simp only [List.length_cons]
    simp only [parseSegLines, hline, hwords, List.get?_cons_zero, List.get?_cons_succ,
      pyInt?_decChars, ihx]
    simp only [List.map_cons, List.sum_cons, Except.ok.injEq, Prod.mk.injEq]
    refine ⟨trivial, by push_cast; ring, by omega⟩

theorem parseTrackBlocks_render :
    ∀ (tracks : List RTrack) (pre : List (List Char)),
    (∀ tr ∈ tracks, pyStrip tr.filename = tr.filename) →
    parseTrackBlocks (pre ++ (tracks.map renderTrackLines).flatten) tracks.length pre.length
      = .ok (tracks.map expectedTrack,
             pre.length + (tracks.map (fun tr => 5 + tr.segments.length)).sum) := by
  intro tracks
  induction tracks with
  | nil => intro pre _; simp [parseTrackBlocks]
  | cons tr rest ih =>
    intro pre hfn
    have hnorm : pre ++ ((tr :: rest).map renderTrackLines).flatten
        = pre ++ tr.filename :: tr.codec :: tr.bitrate :: tr.duration ::
            decChars tr.segments.length ::
            (tr.segments.map renderSegLine ++ (rest.map renderTrackLines).flatten) := by
      simp [renderTrackLines]
    rw [hnorm]
    set tail5 := tr.segments.map renderSegLine ++ (rest.map renderTrackLines).flatten with htail
    set block5 := tr.filename :: tr.codec :: tr.bitrate :: tr.duration ::
        decChars tr.segments.length :: tail5 with hblock
    have hline0 : (pre ++ block5).get? pre.length = some tr.filename := by
      have h0 := get?_append_add pre block5 0
      rw [Nat.add_zero] at h0
      rw [h0, hblock]
      rfl
    have hline4 : (pre ++ block5).get? (pre.length + 4)
        = some (decChars tr.segments.length) := by
      rw [get?_append_add pre block5 4, hblock]
      rfl
    have hseg : parseSegLines (pre ++ block5) tr.segments.length (pre.length + 5)
        = .ok (tr.segments.map (fun seg => ((seg.1 : Int), (seg.2 : Int))),
               ((tr.segments.map Prod.snd).sum : Int), pre.length + 5 + tr.segments.length) := by
      have hs := parseSegLines_render tr.segments
        (pre ++ [tr.filename, tr.codec, tr.bitrate, tr.duration, decChars tr.segments.length])
        ((rest.map renderTrackLines).flatten)
      rw [show (pre ++ [tr.filename, tr.codec, tr.bitrate, tr.duration,
            decChars tr.segments.length]) ++ tr.segments.map renderSegLine ++
            (rest.map renderTrackLines).flatten = pre ++ block5 from by
          rw [hblock, htail]; simp] at hs
      rw [show (pre ++ [tr.filename, tr.codec, tr.bitrate, tr.duration,
            decChars tr.segments.length]).length = pre.length + 5 from by simp] at hs
      exact hs
    have hrec : parseTrackBlocks (pre ++ block5) rest.length
          (pre.length + 5 + tr.segments.length)
        = .ok (rest.map expectedTrack,
               pre.length + 5 + tr.segments.length +
                 (rest.map (fun t2 => 5 + t2.segments.length)).sum) := by
      have hr := ih (pre ++ renderTrackLines tr) (fun t2 ht2 => hfn t2 (by simp [ht2]))
      rw [show (pre ++ renderTrackLines tr) ++ (rest.map renderTrackLines).flatten
            = pre ++ block5 from by rw [hblock, htail]; simp [renderTrackLines]] at hr
      rw [show (pre ++ renderTrackLines tr).length = pre.length + 5 + tr.segments.length
            from by simp [renderTrackLines]; omega] at hr
      exact hr
    simp only [List.length_cons, parseTrackBlocks, hline0, hline4, pyStrip_decChars,
      pyInt?_decChars, Int.toNat_natCast, hseg, hrec]
    simp only [List.map_cons, List.sum_cons, Except.ok.injEq, Prod.mk.injEq]
    refine ⟨?_, by omega⟩
    simp [expectedTrack, TrackA.mk.injEq, hfn tr (List.mem_cons_self tr rest)]

theorem parseManifestLines_render (movie : List Char) (tracks : List RTrack)
    (hfn : ∀ tr ∈ tracks, pyStrip tr.filename = tr.filename) :
    parseManifestLines (renderLines movie tracks)
      = .ok ((tracks.length : Int), tracks.map expectedTrack) := by
  have hb := parseTrackBlocks_render tracks [movie, decChars tracks.length] hfn
  unfold renderLines
  have hnorm : movie :: decChars tracks.length :: (tracks.map renderTrackLines).flatten
      = [movie, decChars tracks.length] ++ (tracks.map renderTrackLines).flatten := by simp
  rw [hnorm]
  unfold parseManifestLines
  have h1 : ([movie, decChars tracks.length] ++
      (tracks.map renderTrackLines).flatten).get? 1 = some (decChars tracks.length) := by
    have h0 := get?_append_add [movie] (decChars tracks.length ::
      (tracks.map renderTrackLines).flatten) 0
    simp only [List.length_cons, List.length_nil, Nat.add_zero] at h0
    simp only [List.cons_append, List.nil_append] at h0 ⊢
    rw [h0]
    rfl
  simp only [h1, pyInt?_decChars, Int.toNat_natCast]
  rw [show ([movie, decChars tracks.length] : List (List Char)).length = 2 from rfl] at hb
  rw [hb]

theorem getLast?_append_or {α : Type} (l1 l2 : List α) :
    (l1 ++ l2).getLast? = if l2.isEmpty then l1.getLast? else l2.getLast? := by
  cases l2 with
  | nil => simp
  | cons y ys =>
    rw [List.getLast?_append_cons]
    rfl

theorem renderTrackLines_ne_nil (tr : RTrack) : renderTrackLines tr ≠ [] := by
  simp [renderTrackLines]

theorem renderSegLine_ne_nil (seg : Nat × Nat) : renderSegLine seg ≠ [] := by
  unfold renderSegLine
  cases hd : decChars seg.1 with
  | nil => exact absurd hd (decChars_ne_nil seg.1)
  | cons a as => simp

theorem exists_getLast?_of_ne_nil {α : Type} {l : List α} (h : l ≠ []) :
    ∃ x, l.getLast? = some x ∧ x ∈ l :=
  ⟨l.getLast h, List.getLast?_eq_getLast_of_ne_nil h, List.getLast_mem h⟩

theorem renderTrackLines_last (tr : RTrack) :
    ∃ l, (renderTrackLines tr).getLast? = some l ∧ l ≠ [] ∧
      ∀ c, l.getLast? = some c → isDig c = true := by
  unfold renderTrackLines
  rw [show ([tr.filename, tr.codec, tr.bitrate, tr.duration, decChars tr.segments.length]
      ++ tr.segments.map renderSegLine : List (List Char))
      = [tr.filename, tr.codec, tr.bitrate, tr.duration] ++
        (decChars tr.segments.length :: tr.segments.map renderSegLine) from by simp]
  rw [List.getLast?_append_cons]
  cases hs : tr.segments.map renderSegLine with
  | nil =>
    refine ⟨decChars tr.segments.length, by simp, decChars_ne_nil _, ?_⟩
    intro c hc
    exact getLast?_prop (decChars_digits _) hc
  | cons b bs =>
    rw [getLast?_cons_of_ne_nil (by simp)]
    obtain ⟨x, hx, hxmem⟩ := exists_getLast?_of_ne_nil
      (show (b :: bs : List (List Char)) ≠ [] by simp)
    rw [← hs] at hxmem
    obtain ⟨seg, _hsegmem, hseg⟩ := List.mem_map.mp hxmem
    refine ⟨x, hx, ?_, ?_⟩
    · rw [← hseg]; exact renderSegLine_ne_nil seg
    · intro c hc
      rw [← hseg] at hc
      exact getLast?_renderSegLine hc

theorem flatten_tracks_last : ∀ (tracks : List RTrack), tracks ≠ [] →
    ∃ l, ((tracks.map renderTrackLines).flatten).getLast? = some l ∧ l ≠ [] ∧
      ∀ c, l.getLast? = some c → isDig c = true := by
  intro tracks
  induction tracks with
  | nil => intro h; exact absurd rfl h
  | cons tr rest ih =>
    intro _
    cases rest with
    | nil =>
      simp only [List.map_cons, List.map_nil, List.flatten_cons, List.flatten_nil,
        List.append_nil]
      exact renderTrackLines_last tr
    | cons tr2 rest2 =>
      obtain ⟨l, hl, hlne, hdig⟩ := ih (by simp)
      refine ⟨l, ?_, hlne, hdig⟩
      simp only [List.map_cons, List.flatten_cons] at hl ⊢
      rw [getLast?_append_or]
      rw [if_neg (by
        simp only [List.isEmpty_eq_true]
        intro hcontra
        rw [List.append_eq_nil] at hcontra
        exact renderTrackLines_ne_nil tr2 hcontra.1)]
      exact hl

theorem renderLines_last (movie : List Char) (tracks : List RTrack) :
    ∃ l, (renderLines movie tracks).getLast? = some l ∧ l ≠ [] ∧
      ∀ c, l.getLast? = some c → isDig c = true := by
  unfold renderLines
  cases hb : tracks with
  | nil =>
    refine ⟨decChars 0, by simp, decChars_ne_nil 0, ?_⟩
    intro c hc
    exact getLast?_prop (decChars_digits 0) hc
  | cons tr rest =>
    obtain ⟨l, hl, hlne, hdig⟩ := flatten_tracks_last (tr :: rest) (by simp)
    refine ⟨l, ?_, hlne, hdig⟩
    rw [getLast?_cons_of_ne_nil (by simp), getLast?_cons_of_ne_nil]
    · exact hl
    · intro hcontra
      have := renderTrackLines_ne_nil tr
      simp only [List.map_cons, List.flatten_cons, List.append_eq_nil] at hcontra
      exact this hcontra.1

theorem joinNl_head? : ∀ {ls : List (List Char)} {l : List Char},
    ls.head? = some l → l ≠ [] → (joinNl ls).head? = l.head? := by
  intro ls l hh hne
  cases ls with
  | nil => cases hh
  | cons x rest =>
    simp only [List.head?_cons, Option.some.injEq] at hh
    subst hh
    cases rest with
    | nil => rfl
    | cons y rest2 =>
      show (x ++ '\n' :: joinNl (y :: rest2)).head? = x.head?
      exact List.head?_append_of_ne_nil x hne

theorem joinNl_getLast? : ∀ {ls : List (List Char)} {l : List Char},
    ls.getLast? = some l → l ≠ [] → (joinNl ls).getLast? = l.getLast? := by
  intro ls
  induction ls with
  | nil => intro l hh; cases hh
  | cons x rest ih =>
    intro l hh hne
    cases rest with
    | nil =>
      simp only [List.getLast?_singleton, Option.some.injEq] at hh
      subst hh
      rfl
    | cons y rest2 =>
      rw [getLast?_cons_of_ne_nil (by simp)] at hh
      have hj := ih hh hne
      show (x ++ '\n' :: joinNl (y :: rest2)).getLast? = l.getLast?
      rw [List.getLast?_append_cons, getLast?_cons_of_ne_nil, hj]
      intro hcontra
      rw [hcontra] at hj
      have : l.getLast? = none := by rw [← hj]; rfl
      rw [List.getLast?_eq_getLast_of_ne_nil hne] at this
      cases this

theorem headNonWs_ne_nil {l : List Char} (h : headNonWs l = true) : l ≠ [] := by
  cases l with
  | nil => cases h
  | cons c cs => simp

theorem renderLines_no_nl (movie : List Char) (tracks : List RTrack)
    (hmn : ∀ c ∈ movie, c ≠ '\n')
    (htr : ∀ tr ∈ tracks, (∀ c ∈ tr.filename, c ≠ '\n') ∧ (∀ c ∈ tr.codec, c ≠ '\n') ∧
      (∀ c ∈ tr.bitrate, c ≠ '\n') ∧ (∀ c ∈ tr.duration, c ≠ '\n')) :
    ∀ l ∈ renderLines movie tracks, ∀ c ∈ l, c ≠ '\n' := by
  intro l hl
  unfold renderLines at hl
  rcases List.mem_cons.mp hl with h | h
  · subst h; exact hmn
  rcases List.mem_cons.mp h with h | h
  · subst h; exact decChars_not_nl tracks.length
  obtain ⟨block, hblock, hlb⟩ := List.mem_flatten.mp h
  obtain ⟨tr, htrmem, htreq⟩ := List.mem_map.mp hblock
  subst htreq
  obtain ⟨h1, h2, h3, h4⟩ := htr tr htrmem
  unfold renderTrackLines at hlb
  rcases List.mem_append.mp hlb with h | h
  · rcases List.mem_cons.mp h with h | h
    · subst h; exact h1
    rcases List.mem_cons.mp h with h | h
    · subst h; exact h2
    rcases List.mem_cons.mp h with h | h
    · subst h; exact h3
    rcases List.mem_cons.mp h with h | h
    · subst h; exact h4
    rcases List.mem_cons.mp h with h | h
    · subst h; exact decChars_not_nl _
    · cases h
  · obtain ⟨seg, _hsm, hse⟩ := List.mem_map.mp h
    subst hse
    exact renderSegLine_not_nl seg

theorem renderText_strip (movie : List Char) (tracks : List RTrack)
    (hm : headNonWs movie = true) :
    pyStrip (renderText movie tracks) = renderText movie tracks := by
  apply pyStrip_of_ends
  · intro c hc
    unfold renderText at hc
    rw [joinNl_head? (show (renderLines movie tracks).head? = some movie from rfl)
      (headNonWs_ne_nil hm)] at hc
    cases movie with
    | nil => cases hc
    | cons m ms =>
      simp only [List.head?_cons, Option.some.injEq] at hc
      subst hc
      simpa [headNonWs] using hm
  · intro c hc
    rw [List.head?_reverse] at hc
    obtain ⟨l, hl, hlne, hdig⟩ := renderLines_last movie tracks
    unfold renderText at hc
    rw [joinNl_getLast? hl hlne] at hc
    exact isDig_not_ws (hdig c hc)

theorem manifestLines_renderText (movie : List Char) (tracks : List RTrack)
    (hm : headNonWs movie = true)
    (hmn : ∀ c ∈ movie, c ≠ '\n')
    (htr : ∀ tr ∈ tracks, (∀ c ∈ tr.filename, c ≠ '\n') ∧ (∀ c ∈ tr.codec, c ≠ '\n') ∧
      (∀ c ∈ tr.bitrate, c ≠ '\n') ∧ (∀ c ∈ tr.duration, c ≠ '\n')) :
    splitNl (pyStrip (renderText movie tracks)) = renderLines movie tracks := by
  rw [renderText_strip movie tracks hm]
  unfold renderText
  exact splitNl_joinNl (by simp [renderLines]) (renderLines_no_nl movie tracks hmn htr)
theorem get?_lt_of_some {α : Type} {l : List α} {j : Nat} {x : α}
    (h : l.get? j = some x) : j < l.length := by
  by_contra hc
  rw [List.get?_eq_none.mpr (by omega)] at h
  cases h

theorem get?_mem_of_some {α : Type} {l : List α} {j : Nat} {x : α}
    (h : l.get? j = some x) : x ∈ l :=
  List.get?_mem h

theorem delivered_take_succ {pushes : List Payload} {c : Nat} {p : Payload}
    (h : pushes.get? c = some p) :
    deliveredBytes (pushes.take (c + 1)) = deliveredBytes (pushes.take c) ++ p.1.getD [] := by
  rw [List.take_succ]
  rw [← List.get?_eq_getElem?, h]
  simp [deliveredBytes]

theorem delivered_cons (p : Payload) (l : List Payload) :
    deliveredBytes (p :: l) = p.1.getD [] ++ deliveredBytes l := by
  simp [deliveredBytes]

theorem pipeInv_init (pushes : List Payload) : PipeInv pushes initState := by
  refine ⟨0, Nat.le_refl 0, by simp [initState], rfl, rfl, by simp [initState]⟩

theorem pipeInv_step {pushes : List Payload} {σ σ2 : PipeState}
    (hinv : PipeInv pushes σ) (hstep : PipeStep pushes σ σ2) : PipeInv pushes σ2 := by
  obtain ⟨c, hc, hp, hsent, hchan, hdone⟩ := hinv
  cases hstep with
  | produce p hget =>
    have hplen : σ.produced < pushes.length := get?_lt_of_some hget
    refine ⟨c, by simp; omega, by simp; omega, by simpa using hsent, ?_, by simpa using hdone⟩
    show σ.chan ++ [p] = (pushes.drop c).take (σ.produced + 1 - c)
    rw [hchan]
    rw [show σ.produced + 1 - c = (σ.produced - c) + 1 from by omega]
    rw [List.take_succ]
    congr 1
    rw [List.getElem?_drop]
    rw [show c + (σ.produced - c) = σ.produced from by omega, ← List.get?_eq_getElem?, hget]
    rfl
  | consume p rest hch hd =>
    rw [hch] at hchan
    have hcp : c < σ.produced := by
      by_contra hcon
      rw [show σ.produced - c = 0 from by omega] at hchan
      simp at hchan
    obtain ⟨q, qs, hdc⟩ : ∃ q qs, pushes.drop c = q :: qs := by
      cases hdq : pushes.drop c with
      | nil => rw [hdq] at hchan; simp at hchan
      | cons q qs => exact ⟨q, qs, rfl⟩
    rw [hdc, show σ.produced - c = (σ.produced - c - 1) + 1 from by omega,
      List.take_succ_cons] at hchan
    injection hchan with hqp hrest2
    subst hqp
    have hgetc : pushes.get? c = some p := by
      have h0 := List.getElem?_drop pushes c 0
      rw [hdc] at h0
      simp only [List.getElem?_cons_zero, Nat.add_zero] at h0
      rw [List.get?_eq_getElem?]
      exact h0.symm
    have hdrop : pushes.drop (c + 1) = qs := by
      have h1 : (pushes.drop c).drop 1 = qs := by rw [hdc]; rfl
      rw [List.drop_drop] at h1
      exact h1
    have hrest : rest = (pushes.drop (c + 1)).take (σ.produced - (c + 1)) := by
      rw [hdrop, show σ.produced - (c + 1) = σ.produced - c - 1 from by omega]
      exact hrest2
    have hclen : c < pushes.length := get?_lt_of_some hgetc
    cases hp1 : p.1 with
    | none =>
      refine ⟨c + 1, by simp [consumeItem, hp1]; omega, by simp [consumeItem, hp1]; omega,
        ?_, ?_, ?_⟩
      · show (consumeItem σ p rest).sent = _
        rw [consumeItem, hp1]
        rw [delivered_take_succ hgetc, hp1]
        simpa using hsent
      · show (consumeItem σ p rest).chan = _
        rw [consumeItem, hp1]
        simpa using hrest
      · show ((consumeItem σ p rest).consumerDone = true ↔ _)
        rw [consumeItem, hp1]
        simp only [Nat.add_sub_cancel]
        constructor
        · intro _
          exact ⟨by omega, p, hgetc, by simp [stopsP, hp1]⟩
        · intro _
          simp
    | some d =>
      refine ⟨c + 1, by simp [consumeItem, hp1]; omega, by simp [consumeItem, hp1]; omega,
        ?_, ?_, ?_⟩
      · show (consumeItem σ p rest).sent = _
        rw [consumeItem, hp1]
        rw [delivered_take_succ hgetc, hp1]
        simp [hsent]
      · show (consumeItem σ p rest).chan = _
        rw [consumeItem, hp1]
        simpa using hrest
      · show ((consumeItem σ p rest).consumerDone = true ↔ _)
        rw [consumeItem, hp1]
        simp only [Nat.add_sub_cancel]
        constructor
        · intro hb2
          exact ⟨by omega, p, hgetc, by simp [stopsP, hp1, hb2]⟩
        · rintro ⟨_, p2, hget2, hstop2⟩
          rw [hgetc] at hget2
          cases hget2
          simp only [stopsP, hp1] at hstop2
          simpa using hstop2

theorem pipeInv_reachable {pushes : List Payload} {σ : PipeState}
    (h : Reachable pushes σ) : PipeInv pushes σ := by
  unfold Reachable at h
  induction h with
  | refl => exact pipeInv_init pushes
  | tail hsteps hstep ih => exact pipeInv_step ih hstep

theorem chan_length_le {pushes : List Payload} {σ : PipeState}
    (h : Reachable pushes σ) : σ.chan.length ≤ pushes.length := by
  obtain ⟨c, hc, hp, _, hchan, _⟩ := pipeInv_reachable h
  rw [hchan]
  simp only [List.length_take, List.length_drop]
  omega

theorem no_stop_consumerDone {pushes : List Payload} {σ : PipeState}
    (hall : pushes.any stopsP = false) (h : Reachable pushes σ) :
    σ.consumerDone = false := by
  obtain ⟨c, _, _, _, _, hdone⟩ := pipeInv_reachable h
  by_contra hcon
  rw [Bool.not_eq_false] at hcon
  obtain ⟨_, p, hget, hstop⟩ := hdone.mp hcon
  have hmem : p ∈ pushes := get?_mem_of_some hget
  rw [List.any_eq_false] at hall
  exact hall p hmem hstop

theorem reachable_take (pushes : List Payload) : ∀ k, k ≤ pushes.length →
    Reachable pushes ⟨k, pushes.take k, [], false⟩ := by
  intro k
  induction k with
  | zero =>
    intro _
    show Relation.ReflTransGen _ _ _
    have : (⟨0, pushes.take 0, [], false⟩ : PipeState) = initState := by
      simp [initState]
    rw [this]
  | succ k ih =>
    intro hk
    refine Relation.ReflTransGen.tail (ih (by omega)) ?_
    have hklt : k < pushes.length := by omega
    have hget : pushes.get? k = some (pushes.get ⟨k, hklt⟩) := List.get?_eq_get hklt
    have hstep : PipeStep pushes ⟨k, pushes.take k, [], false⟩
        ⟨k + 1, pushes.take k ++ [pushes.get ⟨k, hklt⟩], [], false⟩ :=
      PipeStep.produce ⟨k, pushes.take k, [], false⟩ (pushes.get ⟨k, hklt⟩) hget
    have htgt : (⟨k + 1, pushes.take k ++ [pushes.get ⟨k, hklt⟩], [], false⟩ : PipeState)
        = ⟨k + 1, pushes.take (k + 1), [], false⟩ := by
      simp only [PipeState.mk.injEq, and_true, true_and]
      rw [List.take_succ, ← List.get?_eq_getElem?, hget]
      rfl
    rw [← htgt]
    exact hstep

theorem reachable_consume_chain (pushes : List Payload) :
    ∀ (l : List Payload) (σ : PipeState), σ.chan = l → σ.consumerDone = false →
    (∀ p ∈ l, stopsP p = false) →
    Relation.ReflTransGen (PipeStep pushes) σ
      ⟨σ.produced, [], σ.sent ++ deliveredBytes l, false⟩ := by
  intro l
  induction l with
  | nil =>
    intro σ hch hd _
    have : (⟨σ.produced, [], σ.sent ++ deliveredBytes [], false⟩ : PipeState) = σ := by
      cases σ
      simp_all [deliveredBytes]
    rw [this]
  | cons p rest ih =>
    intro σ hch hd hall
    have hstop : stopsP p = false := hall p (by simp)
    obtain ⟨d, hd1⟩ : ∃ d, p.1 = some d := by
      cases h1 : p.1 with
      | none => rw [stopsP, h1] at hstop; simp at hstop
      | some d => exact ⟨d, rfl⟩
    have hp2 : p.2 = false := by
      rw [stopsP, hd1] at hstop
      simpa using hstop
    refine Relation.ReflTransGen.head (PipeStep.consume σ p rest hch hd) ?_
    have hx := ih (consumeItem σ p rest) (by rw [consumeItem, hd1])
      (by rw [consumeItem, hd1]; exact hp2) (fun q hq => hall q (by simp [hq]))
    have heq : (⟨(consumeItem σ p rest).produced, [],
        (consumeItem σ p rest).sent ++ deliveredBytes rest, false⟩ : PipeState)
        = ⟨σ.produced, [], σ.sent ++ deliveredBytes (p :: rest), false⟩ := by
      rw [consumeItem, hd1]
      simp only [PipeState.mk.injEq, and_true, true_and]
      rw [delivered_cons, hd1]
      simp
    rw [heq] at hx
    exact hx

theorem reachable_drain (pushes : List Payload)
    (hall : ∀ p ∈ pushes, stopsP p = false) :
    Reachable pushes ⟨pushes.length, [], deliveredBytes pushes, false⟩ := by
  have h1 := reachable_take pushes pushes.length (Nat.le_refl _)
  rw [List.take_length] at h1
  have h2 := reachable_consume_chain pushes pushes ⟨pushes.length, pushes, [], false⟩
    rfl rfl hall
  simp only [List.nil_append] at h2
  exact Relation.ReflTransGen.trans h1 h2

theorem producerPushes_length_le {α : Type} (resp : Nat → α → Nat × Bytes) :
    ∀ (segs : List α) (idx : Nat), (producerPushes resp segs idx).length ≤ segs.length := by
  intro segs
  induction segs with
  | nil => intro idx; simp [producerPushes]
  | cons s rest ih =>
    intro idx
    simp only [producerPushes]
    cases fetchSegment (resp idx s) with
    | none => simp
    | some d =>
      simp only [List.length_cons]
      have := ih (idx + 1)
      omega

theorem producerPushes_eq_spec (resp : Nat → Nat × Nat → Nat × Bytes) (remote : Nat → Nat) :
    ∀ (segs : List (Nat × Nat)) (idx : Nat),
    (∀ j seg, segs.get? j = some seg → resp (idx + j) seg = (200, rangeBytes remote seg.1 seg.2)) →
    producerPushes resp segs idx = specPushes remote segs := by
  intro segs
  induction segs with
  | nil => intro idx _; rfl
  | cons s rest ih =>
    intro idx h
    have h0 := h 0 s rfl
    rw [Nat.add_zero] at h0
    simp only [producerPushes, h0, fetchSegment]
    rw [if_neg (by omega)]
    simp only [specPushes]
    rw [ih (idx + 1) ?_]
    intro j seg hj
    have hx := h (j + 1) seg (by simpa using hj)
    rwa [show idx + (j + 1) = idx + 1 + j from by omega] at hx

theorem specPushes_length (remote : Nat → Nat) :
    ∀ segs : List (Nat × Nat), (specPushes remote segs).length = segs.length := by
  intro segs
  induction segs with
  | nil => rfl
  | cons s rest ih => simp [specPushes, ih]

theorem delivered_specPushes (remote : Nat → Nat) :
    ∀ segs : List (Nat × Nat), deliveredBytes (specPushes remote segs)
      = (segs.map (fun seg => rangeBytes remote seg.1 seg.2)).flatten := by
  intro segs
  induction segs with
  | nil => rfl
  | cons s rest ih =>
    simp only [specPushes, delivered_cons, List.map_cons, List.flatten_cons, ih]
    rfl

theorem specPushes_stops (remote : Nat → Nat) :
    ∀ (segs : List (Nat × Nat)) (j : Nat) (p : Payload),
    (specPushes remote segs).get? j = some p → stopsP p = true → j = segs.length - 1 := by
  intro segs
  induction segs with
  | nil => intro j p h _; cases h
  | cons s rest ih =>
    intro j p h hstop
    cases j with
    | zero =>
      simp only [specPushes, List.get?_cons_zero, Option.some.injEq] at h
      subst h
      simp only [stopsP, Option.isNone_some, Bool.false_or] at hstop
      rw [List.isEmpty_iff] at hstop
      subst hstop
      rfl
    | succ j =>
      simp only [specPushes, List.get?_cons_succ] at h
      have hj := ih j p h hstop
      have hlt : j < (specPushes remote rest).length := get?_lt_of_some h
      rw [specPushes_length] at hlt
      simp only [List.length_cons]
      omega

theorem producerPushes_fail (resp : Nat → Nat × Nat → Nat × Bytes) (remote : Nat → Nat) :
    ∀ (segs : List (Nat × Nat)) (idx i : Nat), i < segs.length →
    (∀ j seg, j < i → segs.get? j = some seg →
      resp (idx + j) seg = (200, rangeBytes remote seg.1 seg.2)) →
    (∀ seg, segs.get? i = some seg →
      400 ≤ (resp (idx + i) seg).1 ∧ (resp (idx + i) seg).1 < 600) →
    producerPushes resp segs idx
      = (segs.take i).map (fun seg => (some (rangeBytes remote seg.1 seg.2), false)) := by
  intro segs
  induction segs with
  | nil => intro idx i hi; simp at hi
  | cons s rest ih =>
    intro idx i hi hhon hfail
    cases i with
    | zero =>
      have hf := hfail s rfl
      rw [Nat.add_zero] at hf
      simp only [producerPushes, fetchSegment]
      rw [if_pos (by omega)]
      rfl
    | succ i =>
      have h0 := hhon 0 s (by omega) rfl
      rw [Nat.add_zero] at h0
      simp only [producerPushes, h0, fetchSegment]
      rw [if_neg (by omega)]
      show (some (rangeBytes remote s.1 s.2), rest.isEmpty) ::
        producerPushes resp rest (idx + 1) = _
      have hre : rest.isEmpty = false := by
        cases rest with
        | nil => simp at hi
        | cons a b => rfl
      rw [hre]
      rw [List.take_succ_cons, List.map_cons]
      congr 1
      exact ih (idx + 1) i (by simpa using hi)
        (fun j seg hj hget => by
          have hx := hhon (j + 1) seg (by omega) (by simpa using hget)
          rwa [show idx + (j + 1) = idx + 1 + j from by omega] at hx)
        (fun seg hget => by
          have hx := hfail seg (by simpa using hget)
          rwa [show idx + (i + 1) = idx + 1 + i from by omega] at hx)

theorem producerPushes_success_flags {α : Type} (resp : Nat → α → Nat × Bytes) :
    ∀ (segs : List α) (idx : Nat), segs ≠ [] →
    (∀ j seg, segs.get? j = some seg → fetchSegment (resp (idx + j) seg) ≠ none) →
    (producerPushes resp segs idx).map Prod.snd
      = List.replicate (segs.length - 1) false ++ [true] := by
  intro segs
  induction segs with
  | nil => intro idx h; exact absurd rfl h
  | cons s rest ih =>
    intro idx _ hok
    obtain ⟨d, hd⟩ : ∃ d, fetchSegment (resp idx s) = some d := by
      have h0 := hok 0 s rfl
      rw [Nat.add_zero] at h0
      cases hf : fetchSegment (resp idx s) with
      | none => exact absurd hf h0
      | some d => exact ⟨d, rfl⟩
    simp only [producerPushes, hd]
    cases rest with
    | nil => rfl
    | cons s2 rest2 =>
      have hrec := ih (idx + 1) (by simp) (fun j seg hget => by
        have hx := hok (j + 1) seg (by simpa using hget)
        rwa [show idx + (j + 1) = idx + 1 + j from by omega] at hx)
      show (false :: (producerPushes resp (s2 :: rest2) (idx + 1)).map Prod.snd) = _
      rw [hrec]
      simp [List.replicate_succ]
/-! # Claim theorems -/

/-- C1: the spec demands that a segment fetch whose response body length
differs from the requested size fail with `TransferError`.  The code has
no such check: `raise_for_status` passes any 2xx response and the body is
enqueued as-is.  At the failing input — a range request for 100 bytes
answered with HTTP 200 and a 90-byte body — the fetch accepts the body
and the producer enqueues and forwards it. -/
theorem C1_fetch_accepts_length_mismatch :
    fetchSegment (200, List.replicate 90 7) = some (List.replicate 90 7) ∧
    (List.replicate 90 7).length ≠ 100 ∧
    producerPushes shortOrigin [((0 : Nat), (100 : Nat))] 0
      = [(some (List.replicate 90 7), true)] := by
  refine ⟨rfl, by decide, rfl⟩

/-- C10: the consumer has a second, undocumented termination path: a
dequeued payload whose bytes are `None` ends the loop immediately —
before anything is written to the socket and regardless of the `isLast`
flag. -/
theorem C10_none_payload_stops (pushes : List Payload) (σ : PipeState) (b : Bool)
    (rest : List Payload) (hch : σ.chan = (none, b) :: rest)
    (hd : σ.consumerDone = false) :
    consumeItem σ (none, b) rest = { σ with chan := rest, consumerDone := true } ∧
    (consumeItem σ (none, b) rest).sent = σ.sent ∧
    (consumeItem σ (none, b) rest).consumerDone = true ∧
    PipeStep pushes σ (consumeItem σ (none, b) rest) :=
  ⟨rfl, rfl, rfl, PipeStep.consume σ (none, b) rest hch hd⟩

/-- Witness for C10 at a concrete state with a `(None, false)` item at
the head of the queue and prior bytes `[9]` already sent. -/
theorem C10_none_payload_stops_witness :
    consumeItem ⟨2, [(none, false)], [9], false⟩ (none, false) []
        = (⟨2, [], [9], true⟩ : PipeState) ∧
    (consumeItem ⟨2, [(none, false)], [9], false⟩ (none, false) []).sent = [9] ∧
    (consumeItem ⟨2, [(none, false)], [9], false⟩ (none, false) []).consumerDone = true ∧
    PipeStep [] ⟨2, [(none, false)], [9], false⟩
      (consumeItem ⟨2, [(none, false)], [9], false⟩ (none, false) []) :=
  C10_none_payload_stops [] ⟨2, [(none, false)], [9], false⟩ false [] rfl rfl

/-- C8 counterexample: the claim asserts one fixed channel capacity `B`
bounding queue occupancy in every reachable pipeline state.  The queue is
`queue.Queue()` with no `maxsize`: for any candidate `B`, a producer with
`B + 1` items can run ahead of the consumer and put `B + 1` payloads in
the channel. -/
theorem C8_no_uniform_bound :
    ¬ ∃ B : Nat, ∀ (pushes : List Payload) (σ : PipeState),
      Reachable pushes σ → σ.chan.length ≤ B := by
  rintro ⟨B, hB⟩
  have hr := reachable_take (List.replicate (B + 1) ((some [], false) : Payload))
    (B + 1) (by simp)
  have hle := hB _ _ hr
  simp only [List.length_take, List.length_replicate] at hle
  omega

/-- C8 amended: the channel is unbounded (`queue.Queue()`), so the only
bound on occupancy is what the producer can ever enqueue — the track's
own segment count; the producer never blocks on a full queue. -/
theorem C8_amended_bounded_by_track {α : Type} (resp : Nat → α → Nat × Bytes)
    (segs : List α) (σ : PipeState)
    (h : Reachable (producerPushes resp segs 0) σ) :
    σ.chan.length ≤ segs.length :=
  Nat.le_trans (chan_length_le h) (producerPushes_length_le resp segs 0)

/-- Witness for the amended C8 at the produce-everything state of a
one-segment track. -/
theorem C8_amended_bounded_by_track_witness :
    (⟨1, producerPushes idOrigin [((0 : Nat), (1 : Nat))] 0, [], false⟩ : PipeState).chan.length
      ≤ ([((0 : Nat), (1 : Nat))] : List (Nat × Nat)).length := by
  refine C8_amended_bounded_by_track idOrigin [((0 : Nat), (1 : Nat))] _ ?_
  have h := reachable_take (producerPushes idOrigin [((0 : Nat), (1 : Nat))] 0) 1 (by decide)
  simpa using h

/-- C5 counterexample: the claim says a segment line that does not
contain exactly two integer tokens makes parsing fail.  In `c5bad` the
segment line `"0 100 extra"` has three tokens (the third not an
integer), yet parsing succeeds — the source reads `tokens[0]` and
`tokens[1]` and ignores the rest. -/
theorem C5_counterexample :
    (pyWords (pyStrip ("0 100 extra".toList))).length = 3 ∧
    pyInt? ("extra".toList) = none ∧
    (parse_manifest c5bad).isOk = true := by
  refine ⟨rfl, rfl, rfl⟩

/-- C5 amended: parsing fails exactly when the manifest violates the
grammar with the corrected segment-line rule (a required line absent, an
integer field unparseable, or a segment line with fewer than two tokens
or whose first two tokens are not integers — extra tokens are
tolerated); and a successful parse is never partial: the track list has
exactly the declared number of tracks and every track exactly its
declared number of segments. -/
theorem C5_parse_iff_wellformed (text : List Char) :
    ((parse_manifest text).isOk = wellFormedLines (splitNl (pyStrip text))) ∧
    (∀ t tracks, parse_manifest text = .ok (t, tracks) →
      tracks.length = t.toNat ∧
      ∀ tr ∈ tracks, tr.segments.length = tr.num_segments.toNat) := by
  refine ⟨parseManifestLines_isOk_iff _, ?_⟩
  intro t tracks h
  obtain ⟨h1, h2⟩ := parseManifestLines_ok _ h
  exact ⟨h1, fun tr htr => (h2 tr htr).1⟩

/-- Witness for C5 at the concrete manifest `c5good`: the equivalence
transports a concrete successful parse to the grammar predicate. -/
theorem C5_parse_iff_wellformed_witness :
    wellFormedLines (splitNl (pyStrip c5good)) = true ∧
    (∀ tr ∈ [(⟨"f".toList, 1, 5, [((0 : Int), (5 : Int))]⟩ : TrackA)],
      tr.segments.length = tr.num_segments.toNat) := by
  constructor
  · rw [← (C5_parse_iff_wellformed c5good).1]
    rfl
  · exact ((C5_parse_iff_wellformed c5good).2 1
      [⟨"f".toList, 1, 5, [((0 : Int), (5 : Int))]⟩] (by rfl)).2

/-- C9 counterexample: the claim says the size report lists each of the
`T` tracks' segment counts.  programA writes only the FIRST track's
segment count (source comment: "same for all tracks"): on `c9demo`,
whose tracks have 1 and 2 segments, the report is `[2, 1, 10, 25]`
where the claim expects `[2, 1, 2, 10, 25]`. -/
theorem C9_counterexample :
    reportOf c9demo = some [2, 1, 10, 25] ∧
    claimReportOf c9demo = some [2, 1, 2, 10, 25] ∧
    reportOf c9demo ≠ claimReportOf c9demo := by
  refine ⟨rfl, rfl, by decide⟩

/-- C9 amended: for every successfully parsed manifest the size report
is the track count, then the first track's segment count (only when at
least one track exists), then each track's total byte size — which
equals the sum of that track's segment sizes. -/
theorem C9_report_shape (text : List Char) (t : Int) (tracks : List TrackA)
    (h : parse_manifest text = .ok (t, tracks)) :
    reportOf text = some ([t] ++ headSegCount tracks ++
      tracks.map (fun tr => (tr.segments.map Prod.snd).sum)) := by
  unfold reportOf
  rw [h]
  show some (sizeReport t tracks) = _
  unfold sizeReport
  have hmap : tracks.map (·.total_size)
      = tracks.map (fun tr => (tr.segments.map Prod.snd).sum) :=
    List.map_congr_left (fun tr htr => ((parseManifestLines_ok _ h).2 tr htr).2)
  rw [hmap]

/-- Witness for the amended C9 at `c9demo`. -/
theorem C9_report_shape_witness :
    reportOf c9demo = some ([(2 : Int)] ++ [1] ++ [10, 25]) :=
  C9_report_shape c9demo 2
    [⟨"f1".toList, 1, 10, [((0 : Int), (10 : Int))]⟩,
     ⟨"f2".toList, 2, 25, [((10 : Int), (20 : Int)), (30, 5)]⟩] (by rfl)

/-- C6: parsing is a left inverse of the spec's manifest grammar: for any
movie name (nonempty, no newline, not starting with whitespace) and any
track list whose text fields are newline-free and whose filenames are
strip-stable, parsing the rendered manifest text recovers the track
count and every track's filename, segment count, total size, and
segments — offsets and sizes preserved in order. -/
theorem C6_parse_render_roundtrip (movie : List Char) (tracks : List RTrack)
    (hm : headNonWs movie = true)
    (hmn : ∀ c ∈ movie, c ≠ '\n')
    (htr : ∀ tr ∈ tracks, pyStrip tr.filename = tr.filename ∧
      (∀ c ∈ tr.filename, c ≠ '\n') ∧ (∀ c ∈ tr.codec, c ≠ '\n') ∧
      (∀ c ∈ tr.bitrate, c ≠ '\n') ∧ (∀ c ∈ tr.duration, c ≠ '\n')) :
    parse_manifest (renderText movie tracks)
      = .ok ((tracks.length : Int), tracks.map expectedTrack) := by
  unfold parse_manifest
  rw [manifestLines_renderText movie tracks hm hmn (fun tr h => (htr tr h).2)]
  exact parseManifestLines_render movie tracks (fun tr h => (htr tr h).1)

/-- Witness for C6: a concrete one-track manifest with two segments
rendered and parsed back. -/
theorem C6_parse_render_roundtrip_witness :
    parse_manifest (renderText ("demo".toList)
        [⟨"f.mp4".toList, "h264".toList, "500".toList, "60".toList, [(0, 2), (2, 1)]⟩])
      = .ok ((1 : Int),
          [expectedTrack ⟨"f.mp4".toList, "h264".toList, "500".toList, "60".toList,
            [(0, 2), (2, 1)]⟩]) := by
  refine C6_parse_render_roundtrip ("demo".toList) _ (by decide) (by decide) ?_
  intro tr htr
  simp only [List.mem_singleton] at htr
  subst htr
  refine ⟨by decide, by decide, by decide, by decide, by decide⟩

/-- C7: when every fetch succeeds, the producer enqueues exactly one
payload with `is_last = true`, and it is the final payload: the flag
sequence is `false^(n-1) ++ [true]`. -/
theorem C7_single_terminal_flag {α : Type} (resp : Nat → α → Nat × Bytes)
    (segs : List α) (hne : segs ≠ [])
    (hok : ∀ j seg, segs.get? j = some seg → fetchSegment (resp j seg) ≠ none) :
    (producerPushes resp segs 0).map Prod.snd
      = List.replicate (segs.length - 1) false ++ [true] := by
  refine producerPushes_success_flags resp segs 0 hne ?_
  intro j seg hj
  rw [Nat.zero_add]
  exact hok j seg hj

/-- Witness for C7 on a concrete two-segment track served by a compliant
origin. -/
theorem C7_single_terminal_flag_witness :
    (producerPushes idOrigin [((0 : Nat), (1 : Nat)), (1, 2)] 0).map Prod.snd
      = List.replicate 1 false ++ [true] := by
  refine C7_single_terminal_flag idOrigin [((0 : Nat), (1 : Nat)), (1, 2)] (by decide) ?_
  intro j seg hj
  simp [idOrigin, fetchSegment]

/-- C2: under any interleaving of the two threads, if every fetch
succeeds (the origin answers each request with HTTP 200 and exactly the
requested byte range of `remote`), then whenever the consumer loop has
terminated, the bytes written to the player socket are exactly the
concatenation of the remote resource's bytes at the track's ranges, in
manifest order. -/
theorem C2_inorder_delivery (remote : Nat → Nat) (resp : Nat → Nat × Nat → Nat × Bytes)
    (segs : List (Nat × Nat))
    (hhon : ∀ j seg, segs.get? j = some seg →
      resp j seg = (200, rangeBytes remote seg.1 seg.2))
    (σ : PipeState) (hr : Reachable (producerPushes resp segs 0) σ)
    (hdone : σ.consumerDone = true) :
    σ.sent = (segs.map (fun seg => rangeBytes remote seg.1 seg.2)).flatten := by
  have hps : producerPushes resp segs 0 = specPushes remote segs :=
    producerPushes_eq_spec resp remote segs 0 (fun j seg hj => by
      have hx := hhon j seg hj
      rwa [Nat.zero_add])
  rw [hps] at hr
  obtain ⟨c, hc, hp, hsent, _hchan, hdoneiff⟩ := pipeInv_reachable hr
  obtain ⟨hposc, p, hget, hstop⟩ := hdoneiff.mp hdone
  have hcm1 := specPushes_stops remote segs (c - 1) p hget hstop
  have hclen : c - 1 < (specPushes remote segs).length := get?_lt_of_some hget
  rw [specPushes_length] at hclen
  have hplen : σ.produced ≤ segs.length := by rwa [specPushes_length] at hp
  have hceq : c = segs.length := by omega
  rw [hsent, hceq,
    show segs.length = (specPushes remote segs).length
      from (specPushes_length remote segs).symm,
    List.take_length, delivered_specPushes]

/-- Witness for C2: a one-segment track over `remote = id`, with the
explicit schedule produce–consume reaching the terminated state. -/
theorem C2_inorder_delivery_witness :
    (⟨1, [], [0], true⟩ : PipeState).sent
      = (([((0 : Nat), (1 : Nat))]).map (fun seg => rangeBytes id seg.1 seg.2)).flatten := by
  have s1 : PipeStep (producerPushes idOrigin [((0 : Nat), (1 : Nat))] 0) initState
      ⟨1, [(some [0], true)], [], false⟩ :=
    PipeStep.produce initState (some [0], true) rfl
  have s2 : PipeStep (producerPushes idOrigin [((0 : Nat), (1 : Nat))] 0)
      ⟨1, [(some [0], true)], [], false⟩ ⟨1, [], [0], true⟩ :=
    PipeStep.consume ⟨1, [(some [0], true)], [], false⟩ (some [0], true) [] rfl rfl
  exact C2_inorder_delivery id idOrigin [((0 : Nat), (1 : Nat))]
    (fun j seg hj => rfl) _
    (Relation.ReflTransGen.tail (Relation.ReflTransGen.single s1) s2) rfl

/-- C3: if the fetch of segment `i` (0 < i, i not last) fails with an
HTTP error while all earlier fetches succeed, the producer enqueues
exactly the first `i` payloads and nothing further; in every reachable
state the consumer has not terminated and the delivered bytes are the
concatenation of a prefix of the first `i` ranges; and the full `i`-range
prefix is actually delivered under the schedule that drains the queue. -/
theorem C3_failure_stops_stream (remote : Nat → Nat) (resp : Nat → Nat × Nat → Nat × Bytes)
    (segs : List (Nat × Nat)) (i : Nat)
    (_hpos : 0 < i) (hik : i + 1 < segs.length)
    (hhon : ∀ j seg, j < i → segs.get? j = some seg →
      resp j seg = (200, rangeBytes remote seg.1 seg.2))
    (hfail : ∀ seg, segs.get? i = some seg →
      400 ≤ (resp i seg).1 ∧ (resp i seg).1 < 600) :
    (producerPushes resp segs 0).length = i ∧
    (∀ σ, Reachable (producerPushes resp segs 0) σ →
      σ.consumerDone = false ∧
      ∃ c, c ≤ i ∧
        σ.sent = ((segs.take c).map (fun seg => rangeBytes remote seg.1 seg.2)).flatten) ∧
    (∃ σ, Reachable (producerPushes resp segs 0) σ ∧
      σ.sent = ((segs.take i).map (fun seg => rangeBytes remote seg.1 seg.2)).flatten) := by
  have hcf : producerPushes resp segs 0
      = (segs.take i).map (fun seg => (some (rangeBytes remote seg.1 seg.2), false)) :=
    producerPushes_fail resp remote segs 0 i (by omega)
      (fun j seg hj hget => by
        have hx := hhon j seg hj hget
        rwa [Nat.zero_add])
      (fun seg hget => by
        have hx := hfail seg hget
        rwa [Nat.zero_add])
  have hnostop : ∀ p ∈ producerPushes resp segs 0, stopsP p = false := by
    intro p hp
    rw [hcf] at hp
    obtain ⟨seg, _hs, hs2⟩ := List.mem_map.mp hp
    rw [← hs2]
    simp [stopsP]
  have hlen : (producerPushes resp segs 0).length = i := by
    rw [hcf, List.length_map, List.length_take]
    omega
  have hanyf : (producerPushes resp segs 0).any stopsP = false := by
    rw [List.any_eq_false]
    intro p hp
    rw [hnostop p hp]
    simp
  refine ⟨hlen, ?_, ?_⟩
  · intro σ hσ
    refine ⟨no_stop_consumerDone hanyf hσ, ?_⟩
    obtain ⟨c, hc, hp, hsent, _, _⟩ := pipeInv_reachable hσ
    rw [hlen] at hp
    refine ⟨c, by omega, ?_⟩
    rw [hsent, hcf, ← List.map_take, List.take_take,
      show min c i = c from by omega, deliveredBytes, List.map_map]
    congr 1
  · refine ⟨⟨(producerPushes resp segs 0).length, [],
        deliveredBytes (producerPushes resp segs 0), false⟩, ?_, ?_⟩
    · exact reachable_drain _ hnostop
    · show deliveredBytes (producerPushes resp segs 0) = _
      rw [hcf, deliveredBytes, List.map_map]
      congr 1

/-- Witness for C3: three one-byte segments over `remote = id` with the
second fetch answered 404; the queue-draining schedule delivers exactly
the first segment's byte. -/
theorem C3_failure_stops_stream_witness :
    ∃ σ, Reachable (producerPushes failAt1Origin
        [((0 : Nat), (1 : Nat)), (1, 1), (2, 1)] 0) σ ∧
      σ.sent = ((([((0 : Nat), (1 : Nat)), (1, 1), (2, 1)]).take 1).map
        (fun seg => rangeBytes id seg.1 seg.2)).flatten := by
  refine (C3_failure_stops_stream id failAt1Origin
    [((0 : Nat), (1 : Nat)), (1, 1), (2, 1)] 1 (by decide) (by decide) ?_ ?_).2.2
  · intro j seg hj hget
    have hj0 : j = 0 := by omega
    subst hj0
    simp only [List.get?_cons_zero, Option.some.injEq] at hget
    subst hget
    rfl
  · intro seg hget
    simp only [List.get?_cons_succ, List.get?_cons_zero, Option.some.injEq] at hget
    subst hget
    decide

/-- C4 counterexample: the claim requires a non-zero exit code whenever a
connect error occurs.  proxy.py catches the connect failure with
`except Exception`, prints it, and falls through `finally` to a normal
return: the process exit code is 0. -/
theorem C4_counterexample :
    mainOutcome 4 ("0".toList) false none segOrigin200 = .exits 0 ∧
    ∀ code, mainOutcome 4 ("0".toList) false none segOrigin200 = .exits code →
      code = 0 := by
  constructor
  · rfl
  · intro code h
    have h2 : ExitOutcome.exits 0 = ExitOutcome.exits code := h
    exact (ExitOutcome.exits.inj h2).symm

/-- C4 amended: the exit code is 1 exactly for a wrong argument count or
an unparseable track argument (`int(sys.argv[3])` is outside the try
block); with well-formed arguments a failed connect is caught, printed,
and the process exits 0; and when `mainOutcome` hangs, no reachable
pipeline state ever has a terminated consumer — `consumer.join()` blocks
forever. -/
theorem C4_exit_codes (argc : Nat) (trackArg : List Char) (connectOk : Bool)
    (mresp : Option (List Char)) (resp : Nat → Seg → Nat × Bytes) :
    (mainOutcome argc trackArg connectOk mresp resp = .exits 1
      ↔ (argc ≠ 4 ∨ pyInt? trackArg = none)) ∧
    (argc = 4 → connectOk = false → pyInt? trackArg ≠ none →
      mainOutcome argc trackArg connectOk mresp resp = .exits 0) ∧
    (mainOutcome argc trackArg connectOk mresp resp = .hangs →
      ∀ tn, pyInt? trackArg = some tn →
        ∀ σ, Reachable (mainPushes resp mresp tn) σ → σ.consumerDone = false) := by
  by_cases ha : argc = 4
  · subst ha
    cases hint : pyInt? trackArg with
    | none =>
      refine ⟨?_, ?_, ?_⟩
      · simp [mainOutcome, hint]
      · intro _ _ hne
        exact absurd rfl hne
      · intro hh
        simp [mainOutcome, hint] at hh
    | some tn =>
      cases connectOk with
      | false =>
        refine ⟨?_, ?_, ?_⟩
        · constructor
          · intro h
            simp [mainOutcome, hint] at h
          · rintro (h4 | hn)
            · exact absurd rfl h4
            · cases hn
        · intro _ _ _
          simp [mainOutcome, hint]
        · intro hh
          simp [mainOutcome, hint] at hh
      | true =>
        cases hstop : (mainPushes resp mresp tn).any stopsP with
        | true =>
          refine ⟨?_, ?_, ?_⟩
          · constructor
            · intro h
              simp [mainOutcome, hint, hstop] at h
            · rintro (h4 | hn)
              · exact absurd rfl h4
              · cases hn
          · intro _ hcf _
            cases hcf
          · intro hh
            simp [mainOutcome, hint, hstop] at hh
        | false =>
          refine ⟨?_, ?_, ?_⟩
          · constructor
            · intro h
              simp [mainOutcome, hint, hstop] at h
            · rintro (h4 | hn)
              · exact absurd rfl h4
              · cases hn
          · intro _ hcf _
            cases hcf
          · intro _ tn2 hint2 σ hσ
            cases hint2
            exact no_stop_consumerDone hstop hσ
  · refine ⟨?_, ?_, ?_⟩
    · constructor
      · intro _
        exact Or.inl ha
      · intro _
        simp [mainOutcome, ha]
    · intro h4
      exact absurd h4 ha
    · intro hh
      simp [mainOutcome, ha] at hh

/-- Witness for the amended C4: a five-argument invocation exits with
code 1. -/
theorem C4_exit_codes_witness :
    mainOutcome 5 ("0".toList) true none segOrigin200 = .exits 1 :=
  (C4_exit_codes 5 ("0".toList) true none segOrigin200).1.mpr (Or.inl (by decide))
end Dash
